import Mathlib

/-!
Shallow embedding of barbuz/3cb-tools (package `tools_3cb`, class `Tools3CB`).

The program keeps a per-deck ledger of averaged match results, merges new
tournament rows into it with a hard conflict check, and builds ranked
deck/card suggestion tables against a gauntlet.  Persistent CSV files are
modelled as an association list keyed by deck identifier (`files`), the
decks.txt registry as `decklist`, and the in-process memoized cache of
`load_deck` as `cache`.  Pandas results are rationals (`Rat`): raw outcomes
are +1, 0, -1 and stored values are averages of those.
-/

namespace T3CB

/-- Association-list lookup; models `dict` lookup / unique-index `.loc` access. -/
def lookupA {α : Type} : List (String × α) → String → Option α
  | [], _ => none
  | (k', v) :: t, k => if k' = k then some v else lookupA t k

/-- Association-list update: replace the value when the key is present, otherwise
append the pair at the end.  Models assignment into a keyed store. -/
def setA {α : Type} : List (String × α) → String → α → List (String × α)
  | [], k, v => [(k, v)]
  | (k', v') :: t, k, v => if k' = k then (k, v) :: t else (k', v') :: setA t k v

/-- Insert a string into a sorted duplicate-free list, keeping it sorted and
duplicate-free. -/
def insertU (x : String) : List String → List String
  | [] => [x]
  | y :: ys => if x = y then y :: ys else if x < y then x :: y :: ys else y :: insertU x ys

/-- Sorted list of the distinct elements of `l`; models Python `sorted(set(l))`
(and the sorted unique values pandas produces for group keys and index unions). -/
def sortDedup (l : List String) : List String := l.foldr insertU []

/-- A matchup record: opponent deck identifier mapped to an averaged result,
in row order of the stored CSV. -/
abbrev Record := List (String × Rat)

/-- State of a `Tools3CB` object together with its database directory. -/
structure St where
  banlist : List String
  files : List (String × Record)
  decklist : List String
  cache : List (String × Record)
deriving DecidableEq, Repr

/-- Raw Win/Tie/Loss outcome of one ingested row. -/
inductive Outcome
  | win
  | tie
  | loss
deriving DecidableEq, Repr

/-- Numeric value of an outcome, as mapped by `df.replace` in `ingest`. -/
def Outcome.val : Outcome → Rat
  | .win => 1
  | .tie => 0
  | .loss => -1

/-- One normalized row of an ingestion batch (after column cleanup and
forward-fill, which are out of scope I/O). -/
structure Row where
  deck : String
  opp : String
  outcome : Outcome
deriving DecidableEq, Repr

/-- Conflict information carried by the `ValueError` raised in `ingest`. -/
structure Conflict where
  deck : String
  opp : String
deriving DecidableEq, Repr

/-- Value `load_deck` returns: the cached record if present, else the stored
file, else a fresh empty record. -/
def loadVal (st : St) (d : String) : Record :=
  match lookupA st.cache d with
  | some r => r
  | none => (lookupA st.files d).getD []

/-- Models `Tools3CB.load_deck`: returns the record and caches it on a miss. -/
def loadDeck (st : St) (d : String) : Record × St :=
  match lookupA st.cache d with
  | some r => (r, st)
  | none =>
    let r := (lookupA st.files d).getD []
    (r, { st with cache := setA st.cache d r })

/-- Models `Tools3CB.save_deck`: writes the record to the store and re-registers
the deck, keeping the registry sorted and unique. -/
def saveDeck (st : St) (r : Record) (d : String) : St :=
  { st with
    files := setA st.files d r
    decklist := sortDedup (st.decklist ++ [d]) }

/-- Raw numeric results of all batch rows for the ordered pair `(d, o)`. -/
def resultsFor (rows : List Row) (d o : String) : List Rat :=
  rows.filterMap (fun r => if r.deck = d ∧ r.opp = o then some r.outcome.val else none)

/-- Opponents recorded against deck `d` in the batch, with repetitions. -/
def oppsOf (rows : List Row) (d : String) : List String :=
  rows.filterMap (fun r => if r.deck = d then some r.opp else none)

/-- Batch average for the ordered pair `(d, o)`; models the
`groupby(["Decklist", "Opponent Decklist"]).mean()` value. -/
def avgFor (rows : List Row) (d o : String) : Rat :=
  let vs := resultsFor rows d o
  vs.sum / (vs.length : Rat)

/-- Averaged batch entries for deck `d`, with opponents sorted and unique, in
the order `df.loc[deck].index` iterates them. -/
def groupedOpps (rows : List Row) (d : String) : List (String × Rat) :=
  (sortDedup (oppsOf rows d)).map (fun o => (o, avgFor rows d o))

/-- Per-deck update loop of `ingest`: check each averaged batch entry against
the current record, inserting missing opponents at the end, and fail with the
offending opponent and the partially updated record on a mismatch. -/
def mergeOpps : Record → List (String × Rat) → Except (String × Record) Record
  | r, [] => .ok r
  | r, (o, v) :: rest =>
    match lookupA r o with
    | some old => if v = old then mergeOpps r rest else .error (o, r)
    | none => mergeOpps (r ++ [(o, v)]) rest

/-- Processing of one deck inside `ingest`: load (filling the cache), merge the
batch entries, then either save, or surface the conflict leaving the mutated
record only in the cache (the loaded DataFrame is the cached object, so
in-place mutations are visible through the cache even when the save is
never reached). -/
def ingestDeck (st : St) (rows : List Row) (d : String) : St × Option Conflict :=
  let p := loadDeck st d
  match mergeOpps p.1 (groupedOpps rows d) with
  | .ok r => (saveDeck { p.2 with cache := setA p.2.cache d r } r d, none)
  | .error e => ({ p.2 with cache := setA p.2.cache d e.2 }, some ⟨d, e.1⟩)

/-- Sequential per-deck loop of `ingest`; a conflict aborts the batch, keeping
the state reached so far. -/
def ingestGo (rows : List Row) : St → List String → St × Option Conflict
  | st, [] => (st, none)
  | st, d :: ds =>
    match ingestDeck st rows d with
    | (st', none) => ingestGo rows st' ds
    | (st', some c) => (st', some c)

/-- Models `Tools3CB.ingest` on a normalized batch: average repeated ordered
pairs, then process each deck of `df.index.levels[0]` in sorted order. -/
def ingest (st : St) (rows : List Row) : St × Option Conflict :=
  ingestGo rows st (sortDedup (rows.map Row.deck))

/-- Left-to-right non-overlapping split of a character list on the fixed
three-character separator of the source, `' '`, `'|'`, `' '`; the first
argument accumulates the current token in reverse. -/
def splitCardsChars : List Char → List Char → List (List Char)
  | acc, ' ' :: '|' :: ' ' :: rest => acc.reverse :: splitCardsChars [] rest
  | acc, c :: rest => splitCardsChars (c :: acc) rest
  | acc, [] => [acc.reverse]

/-- Card names of a deck identifier; models `deck.split(' | ')` (a plain
non-regex split on the literal separator). -/
def splitCards (d : String) : List String :=
  (splitCardsChars [] d.data).map (fun cs => String.mk cs)

/-- Tests whether any card of the identifier is on the banlist. -/
def isBanned (banlist : List String) (d : String) : Bool :=
  (splitCards d).any (fun c => banlist.contains c)

/-- Models `Tools3CB.remove_banlist`: drop rows whose opponent identifier
contains a banned card. -/
def removeBanlist (banlist : List String) (r : Record) : Record :=
  r.filter (fun p => !isBanned banlist p.1)

/-- Negated record; models `-self.load_deck(deck)` on the Result column. -/
def negRecord (r : Record) : Record := r.map (fun p => (p.1, -p.2))

/-- Models `Tools3CB.get_deck_global_score` with its default `use_banlist=True`:
sum of the banlist-filtered record. -/
def getDeckGlobalScore (st : St) (d : String) : Rat :=
  ((removeBanlist st.banlist (loadVal st d)).map (fun p => p.2)).sum

/-- Greedy shared-card count of `Tools3CB.get_guesses`: walk the query
opponent's cards and remove each matched card from the recorded opponent's
pool so it cannot match twice. -/
def greedySim : List String → List String → Nat
  | [], _ => 0
  | c :: cs, pool => if pool.contains c then greedySim cs (pool.erase c) + 1 else greedySim cs pool

/-- Scan of the record inside `Tools3CB.get_guesses`, collecting the stored
result of every entry whose similarity with the query cards exceeds 1. -/
def collectGuesses (qc : List String) : Record → List Rat
  | [] => []
  | (opp, v) :: rest =>
    if 1 < greedySim qc (splitCards opp) then v :: collectGuesses qc rest
    else collectGuesses qc rest

/-- Models `Tools3CB.get_guesses deck opponent`. -/
def getGuesses (st : St) (d o : String) : List Rat :=
  collectGuesses (splitCards o) (loadVal st d)

/-- Models `Tools3CB.guess_result`: average the forward guesses with the
negated reverse guesses, `none` when there is no evidence at all. -/
def guessResult (st : St) (d o : String) : Option Rat :=
  let gs := getGuesses st d o ++ (getGuesses st o d).map (fun g => -g)
  if gs.isEmpty then none else some (gs.sum / (gs.length : Rat))

/-- Column data `get_suggestions` derives for gauntlet member `g`: its record
negated then banlist-filtered, or an empty column when `g` is not in the
registry (which only logs a warning). -/
def filteredRecord (st : St) (g : String) : Record :=
  if st.decklist.contains g then removeBanlist st.banlist (negRecord (loadVal st g))
  else []

/-- Cell of the suggestion table at row deck `d`, column gauntlet member `g`. -/
def cell (st : St) (g d : String) : Option Rat :=
  lookupA (filteredRecord st g) d

/-- Row labels of the suggestion table: the union of the opponents appearing in
the gauntlet members' processed records.  The outer join of the successive
`pd.concat(axis=1)` calls produces the sorted union of the record indexes. -/
def rowIndex (st : St) (gauntlet : List String) : List String :=
  sortDedup (gauntlet.flatMap (fun g => (filteredRecord st g).map (fun p => p.1)))

/-- Row sum that skips missing cells, as pandas `sum(axis=1)` does. -/
def sumOpt (l : List (Option Rat)) : Rat := (l.filterMap id).sum

/-- Known score of deck `d`: row sum of its directly known (negated reverse)
cells. -/
def knownScore (st : St) (gauntlet : List String) (d : String) : Rat :=
  sumOpt (gauntlet.map (fun g => cell st g d))

/-- Cell after `fill_guesses`: the known value when present, otherwise the
similarity estimate (which may itself be missing). -/
def estCell (st : St) (g d : String) : Option Rat :=
  match cell st g d with
  | some v => some v
  | none => guessResult st d g

/-- Estimated score of deck `d`: row sum of the table after `fill_guesses`. -/
def estScore (st : St) (gauntlet : List String) (d : String) : Rat :=
  sumOpt (gauntlet.map (fun g => estCell st g d))

/-- One row of the deck suggestion table: the deck, its score columns, and the
per-gauntlet-member known cells the table displays. -/
structure SugRow where
  deck : String
  known : Rat
  est : Option Rat
  glob : Rat
  cells : List (Option Rat)
deriving DecidableEq, Repr

/-- Row of the suggestion table for deck `d`; the estimated column is present
only when estimation is enabled. -/
def mkRow (st : St) (gauntlet : List String) (estimate : Bool) (d : String) : SugRow :=
  { deck := d
    known := knownScore st gauntlet d
    est := if estimate then some (estScore st gauntlet d) else none
    glob := getDeckGlobalScore st d
    cells := gauntlet.map (fun g => cell st g d) }

/-- Sort key of a suggestion row, matching the `sort_columns` priority list
built in `get_suggestions`: Known score, then Estimated score when it was
computed, then Global score. -/
def sortKey (r : SugRow) : List Rat :=
  r.known :: (match r.est with | some e => [e] | none => []) ++ [r.glob]

/-- Lexicographic strict comparison of key lists, components compared as
numbers. -/
def lexLt : List Rat → List Rat → Bool
  | _, [] => false
  | [], _ :: _ => true
  | a :: as, b :: bs => if a < b then true else if b < a then false else lexLt as bs

/-- Insertion step of a stable descending sort: keep the strictly greater
prefix, then place the new element ahead of everything not above it. -/
def insDesc {α : Type} (key : α → List Rat) (x : α) : List α → List α
  | [] => [x]
  | y :: ys => if lexLt (key x) (key y) then y :: insDesc key x ys else x :: y :: ys

/-- Stable descending insertion sort; models
`sort_values(by=sort_columns, ascending=False, kind="stable")`. -/
def sortDesc {α : Type} (key : α → List Rat) (l : List α) : List α :=
  l.foldr (insDesc key) []

/-- Rows of the table before threshold filtering and sorting, in index order. -/
def preRows (st : St) (gauntlet : List String) (estimate : Bool) : List SugRow :=
  (rowIndex st gauntlet).map (mkRow st gauntlet estimate)

/-- Models `Tools3CB.get_suggestions`: build the per-deck rows, filter by the
threshold on the known score when one is supplied, and stably sort by the
priority keys, all descending. -/
def getSuggestions (st : St) (gauntlet : List String) (threshold : Option Rat)
    (estimate : Bool) : List SugRow :=
  let rows := preRows st gauntlet estimate
  let rows := match threshold with
    | some t => rows.filter (fun r => t < r.known)
    | none => rows
  sortDesc sortKey rows

/-- Column data `get_card_suggestions` derives for gauntlet member `g`:
negated record, banlist-filtered when requested, empty for unknown members. -/
def cardSource (st : St) (rb : Bool) (g : String) : Record :=
  if st.decklist.contains g then
    if rb then removeBanlist st.banlist (negRecord (loadVal st g))
    else negRecord (loadVal st g)
  else []

/-- Exploded values for card `c` in member `g`'s column: one copy of the entry
result per occurrence of `c` among the entry's cards. -/
def cardVals (st : St) (rb : Bool) (g c : String) : List Rat :=
  (cardSource st rb g).flatMap
    (fun p => ((splitCards p.1).filter (fun x => x = c)).map (fun _ => p.2))

/-- Cell of the card suggestion table: mean of the exploded values, missing
when the card never occurs in the member's column. -/
def cardCell (st : St) (rb : Bool) (g c : String) : Option Rat :=
  let vs := cardVals st rb g c
  if vs.isEmpty then none else some (vs.sum / (vs.length : Rat))

/-- Row labels of the card table: sorted union of the cards occurring in the
gauntlet members' processed records. -/
def cardIndex (st : St) (rb : Bool) (gauntlet : List String) : List String :=
  sortDedup (gauntlet.flatMap (fun g => (cardSource st rb g).flatMap (fun p => splitCards p.1)))

/-- Total column of the card table: row sum skipping missing cells. -/
def cardTotal (st : St) (rb : Bool) (gauntlet : List String) (c : String) : Rat :=
  sumOpt (gauntlet.map (fun g => cardCell st rb g c))

/-- Card table rows surviving the strict threshold filter, in pre-sort index
order.  The final `sort_values(by="Total", ascending=False)` of
`get_card_suggestions` is left unmodelled: it uses pandas' default unstable
sort kind, so the order of rows tied on Total is not specified by the code. -/
def cardRowsAboveThreshold (st : St) (rb : Bool) (gauntlet : List String) (t : Rat) :
    List String :=
  (cardIndex st rb gauntlet).filter (fun c => t < cardTotal st rb gauntlet c)

/-- Modelled from the spec: `knownScoreAgainst(deck, gauntlet)` as worded in
section 4.4 — the two-directional lookup that takes the deck's own stored
result when present and otherwise the negated reverse value from the
opponent's record, skipping opponents with no value in either direction.
No function of the source performs this combined lookup; this definition
exists to compare the spec's wording with the code's behavior. -/
def specKnownScore (st : St) (d : String) (gauntlet : List String) : Rat :=
  sumOpt (gauntlet.map (fun g =>
    match lookupA (loadVal st d) g with
    | some v => some v
    | none => (lookupA (loadVal st g) d).map (fun w => -w)))


/-- Concrete ledger with one stored result: deck A beat deck B. -/
def stOneStored : St := ⟨[], [("A", [("B", 1)])], ["A"], []⟩

/-- Batch with two rows for the same ordered pair carrying different outcomes. -/
def rowsAvgPair : List Row := [⟨"A", "B", .win⟩, ⟨"A", "B", .loss⟩]

/-- Batch whose single row contradicts the result stored in `stOneStored`. -/
def rowsConflict : List Row := [⟨"A", "B", .loss⟩]

/-- Batch inserting a fresh opponent before hitting the contradiction with the
stored result of `stOneStored`. -/
def rowsInsertThenConflict : List Row := [⟨"A", "A2", .win⟩, ⟨"A", "B", .loss⟩]

/-- State reached by ingesting `rowsInsertThenConflict` into `stOneStored`:
the file store is untouched while the cache holds the half-merged record. -/
def stAfterConflict : St := ⟨[], [("A", [("B", 1)])], ["A"], [("A", [("B", 1), ("A2", 1)])]⟩

/-- One-row batch used for the idempotence example. -/
def rowsSingle : List Row := [⟨"A", "B", .win⟩]

/-- State reached by ingesting `rowsSingle` into the empty ledger. -/
def stAfterSingle : St := ⟨[], [("A", [("B", 1)])], ["A"], [("A", [("B", 1)])]⟩

/-- Record whose single entry shares exactly one card with the query used in
the similarity examples. -/
def stSimOne : St := ⟨[], [("A", [("x | q | r", 5)])], ["A"], []⟩

/-- Record whose single entry shares two cards with the query used in the
similarity examples. -/
def stSimTwo : St := ⟨[], [("A", [("x | y | z", 1)])], ["A"], []⟩

/-- Ledger where deck D stores a result against gauntlet deck G but G's own
record is empty. -/
def stOwnOnly : St := ⟨[], [("D", [("G", 1)]), ("G", [])], ["D", "G"], []⟩

/-- Ledger whose registry holds a deck X that appears in no gauntlet member's
record. -/
def stRegistryX : St := ⟨[], [("G", [("D", 1)]), ("X", [])], ["G", "X"], []⟩

/-- Ledger whose card table has several cards tied on the Total column. -/
def stCards : St := ⟨[], [("G", [("a | b | c", -1), ("a | b | d", -1)])], ["G"], []⟩

/-! Lemmas about the keyed store primitives. -/

theorem lookupA_setA_self {α : Type} (l : List (String × α)) (k : String) (v : α) :
    lookupA (setA l k v) k = some v := by
  induction l with
  | nil => simp [setA, lookupA]
  | cons p t ih =>
    obtain ⟨k', v'⟩ := p
    by_cases h : k' = k
    · simp [setA, h, lookupA]
    · simp [setA, h, lookupA, ih]

theorem lookupA_setA_ne {α : Type} (l : List (String × α)) (k k' : String) (v : α)
    (h : k' ≠ k) : lookupA (setA l k v) k' = lookupA l k' := by
  induction l with
  | nil => simp [setA, lookupA, Ne.symm h]
  | cons p t ih =>
    obtain ⟨k0, v0⟩ := p
    by_cases hp : k0 = k
    · subst hp
      simp [setA, lookupA, Ne.symm h, ih]
    · simp only [setA, if_neg hp, lookupA]
      split
      · rfl
      · exact ih

theorem setA_eq_of_lookupA {α : Type} (l : List (String × α)) (k : String) (v : α)
    (h : lookupA l k = some v) : setA l k v = l := by
  induction l with
  | nil => simp [lookupA] at h
  | cons p t ih =>
    obtain ⟨k0, v0⟩ := p
    by_cases hp : k0 = k
    · simp [lookupA, hp] at h
      simp [setA, hp, h]
    · simp [lookupA, hp] at h
      simp [setA, hp, ih h]

theorem lookupA_append_left {α : Type} (l l' : List (String × α)) (k : String) (v : α)
    (h : lookupA l k = some v) : lookupA (l ++ l') k = some v := by
  induction l with
  | nil => simp [lookupA] at h
  | cons p t ih =>
    obtain ⟨k0, v0⟩ := p
    by_cases hp : k0 = k
    · simp [lookupA, hp] at h ⊢
      exact h
    · simp [lookupA, hp] at h ⊢
      exact ih h

theorem lookupA_snoc_self {α : Type} (l : List (String × α)) (k : String) (v : α)
    (h : lookupA l k = none) : lookupA (l ++ [(k, v)]) k = some v := by
  induction l with
  | nil => simp [lookupA]
  | cons p t ih =>
    obtain ⟨k0, v0⟩ := p
    by_cases hp : k0 = k
    · simp [lookupA, hp] at h
    · simp [lookupA, hp] at h ⊢
      exact ih h

theorem lookupA_snoc_ne {α : Type} (l : List (String × α)) (k k0 : String) (v : α)
    (h : k ≠ k0) : lookupA (l ++ [(k0, v)]) k = lookupA l k := by
  induction l with
  | nil => simp [lookupA, Ne.symm h]
  | cons p t ih =>
    obtain ⟨k1, v1⟩ := p
    by_cases hp : k1 = k
    · simp [lookupA, hp]
    · simp [lookupA, hp, ih]

theorem lookupA_isSome_iff_mem_keys {α : Type} (l : List (String × α)) (k : String) :
    (lookupA l k).isSome = true ↔ k ∈ l.map (fun p => p.1) := by
  induction l with
  | nil => simp [lookupA]
  | cons p t ih =>
    obtain ⟨k0, v0⟩ := p
    by_cases hp : k0 = k
    · simp [lookupA, hp]
    · simp [lookupA, hp, ih, Ne.symm hp]

/-! Lemmas about the sorted duplicate-free registry. -/

theorem mem_insertU (x y : String) (l : List String) :
    y ∈ insertU x l ↔ y = x ∨ y ∈ l := by
  induction l with
  | nil => simp [insertU]
  | cons z t ih =>
    by_cases hz : x = z
    · subst hz
      rw [insertU, if_pos rfl]
      constructor
      · exact fun h => Or.inr h
      · rintro (h | h)
        · exact h ▸ List.mem_cons_self _ _
        · exact h
    · by_cases hlt : x < z
      · rw [insertU, if_neg hz, if_pos hlt]
        simp only [List.mem_cons]
      · rw [insertU, if_neg hz, if_neg hlt]
        simp only [List.mem_cons, ih]
        tauto

theorem pairwise_insertU (x : String) (l : List String)
    (h : l.Pairwise (· < ·)) : (insertU x l).Pairwise (· < ·) := by
  induction l with
  | nil =>
    rw [insertU]
    exact List.pairwise_singleton _ _
  | cons z t ih =>
    rw [List.pairwise_cons] at h
    by_cases hz : x = z
    · subst hz
      rw [insertU, if_pos rfl]
      exact List.pairwise_cons.2 h
    · by_cases hlt : x < z
      · rw [insertU, if_neg hz, if_pos hlt]
        refine List.pairwise_cons.2 ⟨?_, List.pairwise_cons.2 h⟩
        intro y hy
        rcases List.mem_cons.1 hy with hy | hy
        · exact hy ▸ hlt
        · exact lt_trans hlt (h.1 y hy)
      · rw [insertU, if_neg hz, if_neg hlt]
        refine List.pairwise_cons.2 ⟨?_, ih h.2⟩
        intro y hy
        rcases (mem_insertU x y t).1 hy with hy | hy
        · subst hy
          rcases lt_trichotomy y z with hc | hc | hc
          · exact absurd hc hlt
          · exact absurd hc hz
          · exact hc
        · exact h.1 y hy

theorem sortDedup_cons (x : String) (l : List String) :
    sortDedup (x :: l) = insertU x (sortDedup l) := rfl

theorem pairwise_sortDedup (l : List String) : (sortDedup l).Pairwise (· < ·) := by
  induction l with
  | nil => exact List.Pairwise.nil
  | cons x t ih =>
    rw [sortDedup_cons]
    exact pairwise_insertU x _ ih

theorem mem_sortDedup (x : String) (l : List String) : x ∈ sortDedup l ↔ x ∈ l := by
  induction l with
  | nil => simp [sortDedup]
  | cons z t ih =>
    rw [sortDedup_cons, mem_insertU, ih]
    simp

theorem nodup_sortDedup (l : List String) : (sortDedup l).Nodup :=
  (pairwise_sortDedup l).imp ne_of_lt

theorem sorted_mem_unique : (l1 l2 : List String) → l1.Pairwise (· < ·) →
    l2.Pairwise (· < ·) → (∀ x, x ∈ l1 ↔ x ∈ l2) → l1 = l2
  | [], [], _, _, _ => rfl
  | [], y :: t2, _, _, hm => absurd ((hm y).2 (List.mem_cons_self y t2)) (List.not_mem_nil y)
  | x :: t1, [], _, _, hm => absurd ((hm x).1 (List.mem_cons_self x t1)) (List.not_mem_nil x)
  | x :: t1, y :: t2, h1, h2, hm => by
    rw [List.pairwise_cons] at h1 h2
    have hxy : x = y := by
      rcases List.mem_cons.1 ((hm x).1 (List.mem_cons_self x t1)) with h | h
      · exact h
      · rcases List.mem_cons.1 ((hm y).2 (List.mem_cons_self y t2)) with h' | h'
        · exact h'.symm
        · exact absurd (lt_trans (h1.1 y h') (h2.1 x h)) (lt_irrefl x)
    subst hxy
    have ht : t1 = t2 := by
      refine sorted_mem_unique t1 t2 h1.2 h2.2 (fun z => ⟨fun hz => ?_, fun hz => ?_⟩)
      · rcases List.mem_cons.1 ((hm z).1 (List.mem_cons.2 (Or.inr hz))) with h | h
        · exact absurd (h ▸ h1.1 z hz) (lt_irrefl z)
        · exact h
      · rcases List.mem_cons.1 ((hm z).2 (List.mem_cons.2 (Or.inr hz))) with h | h
        · exact absurd (h ▸ h2.1 z hz) (lt_irrefl z)
        · exact h
    rw [ht]

theorem sortDedup_snoc_mem (l : List String) (d : String)
    (hp : l.Pairwise (· < ·)) (hd : d ∈ l) : sortDedup (l ++ [d]) = l := by
  refine sorted_mem_unique _ _ (pairwise_sortDedup _) hp (fun x => ?_)
  rw [mem_sortDedup]
  simp only [List.mem_append, List.mem_singleton]
  constructor
  · rintro (h | h)
    · exact h
    · exact h ▸ hd
  · exact fun h => Or.inl h

/-! Lemmas about the per-deck merge loop. -/

theorem mergeOpps_lookup_mono : (r : Record) → (l : List (String × Rat)) → (r' : Record) →
    mergeOpps r l = .ok r' → ∀ o v, lookupA r o = some v → lookupA r' o = some v
  | r, [], r', h, o, v, hv => by
    rw [mergeOpps] at h
    cases h
    exact hv
  | r, (o1, v1) :: rest, r', h, o, v, hv => by
    rw [mergeOpps] at h
    cases he : lookupA r o1 with
    | some old =>
      simp only [he] at h
      by_cases hveq : v1 = old
      · rw [if_pos hveq] at h
        exact mergeOpps_lookup_mono r rest r' h o v hv
      · rw [if_neg hveq] at h
        cases h
    | none =>
      simp only [he] at h
      refine mergeOpps_lookup_mono _ rest r' h o v ?_
      exact lookupA_append_left r [(o1, v1)] o v hv

theorem mergeOpps_lookup_batch : (r : Record) → (l : List (String × Rat)) → (r' : Record) →
    mergeOpps r l = .ok r' → ∀ p ∈ l, lookupA r' p.1 = some p.2
  | r, [], r', h, p, hp => absurd hp (List.not_mem_nil p)
  | r, (o1, v1) :: rest, r', h, p, hp => by
    rw [mergeOpps] at h
    cases he : lookupA r o1 with
    | some old =>
      simp only [he] at h
      by_cases hveq : v1 = old
      · rw [if_pos hveq] at h
        rcases List.mem_cons.1 hp with hp | hp
        · subst hp
          subst hveq
          exact mergeOpps_lookup_mono r rest r' h o1 v1 he
        · exact mergeOpps_lookup_batch r rest r' h p hp
      · rw [if_neg hveq] at h
        cases h
    | none =>
      simp only [he] at h
      rcases List.mem_cons.1 hp with hp | hp
      · subst hp
        exact mergeOpps_lookup_mono _ rest r' h o1 v1 (lookupA_snoc_self r o1 v1 he)
      · exact mergeOpps_lookup_batch _ rest r' h p hp

theorem mergeOpps_self : (r : Record) → (l : List (String × Rat)) →
    (∀ p ∈ l, lookupA r p.1 = some p.2) → mergeOpps r l = .ok r
  | r, [], _ => rfl
  | r, (o1, v1) :: rest, h => by
    rw [mergeOpps, h (o1, v1) (List.mem_cons_self _ _)]
    show (if v1 = v1 then mergeOpps r rest else Except.error (o1, r)) = Except.ok r
    rw [if_pos rfl]
    exact mergeOpps_self r rest (fun p hp => h p (List.mem_cons.2 (Or.inr hp)))

theorem mergeOpps_error_ext : (r : Record) → (l : List (String × Rat)) →
    (e : String × Record) → mergeOpps r l = .error e → ∃ ext, e.2 = r ++ ext
  | r, [], e, h => by
    rw [mergeOpps] at h
    cases h
  | r, (o1, v1) :: rest, e, h => by
    rw [mergeOpps] at h
    cases he : lookupA r o1 with
    | some old =>
      simp only [he] at h
      by_cases hveq : v1 = old
      · rw [if_pos hveq] at h
        exact mergeOpps_error_ext r rest e h
      · rw [if_neg hveq] at h
        cases h
        exact ⟨[], (List.append_nil r).symm⟩
    | none =>
      simp only [he] at h
      rcases mergeOpps_error_ext _ rest e h with ⟨ext, hext⟩
      exact ⟨(o1, v1) :: ext, by rw [hext, List.append_assoc]; rfl⟩

theorem mergeOpps_error_of_mem : (r : Record) → (l : List (String × Rat)) →
    (o : String) → (v w : Rat) → (o, v) ∈ l → lookupA r o = some w → v ≠ w →
    ∃ e, mergeOpps r l = .error e
  | r, (o1, v1) :: rest, o, v, w, hmem, hw, hne => by
    rw [mergeOpps]
    cases he : lookupA r o1 with
    | some old =>
      show ∃ e, (if v1 = old then mergeOpps r rest else Except.error (o1, r)) = Except.error e
      by_cases hveq : v1 = old
      · rw [if_pos hveq]
        rcases List.mem_cons.1 hmem with hp | hp
        · exfalso
          apply hne
          have ho : o = o1 := congrArg Prod.fst hp
          have hv : v = v1 := congrArg Prod.snd hp
          rw [ho, he] at hw
          rw [hv, hveq]
          exact Option.some.inj hw
        · exact mergeOpps_error_of_mem r rest o v w hp hw hne
      · rw [if_neg hveq]
        exact ⟨(o1, r), rfl⟩
    | none =>
      show ∃ e, mergeOpps (r ++ [(o1, v1)]) rest = Except.error e
      have ho1 : o1 ≠ o := fun hh => by rw [hh, hw] at he; cases he
      rcases List.mem_cons.1 hmem with hp | hp
      · exact absurd (congrArg Prod.fst hp).symm ho1
      · exact mergeOpps_error_of_mem _ rest o v w hp
          (by rw [lookupA_snoc_ne r o o1 v1 (Ne.symm ho1)]; exact hw) hne

/-! Frame lemmas for loading, saving and per-deck ingestion. -/

theorem loadDeck_fst (st : St) (d : String) : (loadDeck st d).1 = loadVal st d := by
  cases h : lookupA st.cache d with
  | some r => simp [loadDeck, loadVal, h]
  | none => simp [loadDeck, loadVal, h]

theorem loadDeck_files (st : St) (d : String) : (loadDeck st d).2.files = st.files := by
  cases h : lookupA st.cache d with
  | some r => simp [loadDeck, h]
  | none => simp [loadDeck, h]

theorem loadDeck_decklist (st : St) (d : String) : (loadDeck st d).2.decklist = st.decklist := by
  cases h : lookupA st.cache d with
  | some r => simp [loadDeck, h]
  | none => simp [loadDeck, h]

theorem loadDeck_banlist (st : St) (d : String) : (loadDeck st d).2.banlist = st.banlist := by
  cases h : lookupA st.cache d with
  | some r => simp [loadDeck, h]
  | none => simp [loadDeck, h]

theorem loadDeck_cache_self (st : St) (d : String) :
    lookupA (loadDeck st d).2.cache d = some (loadVal st d) := by
  cases h : lookupA st.cache d with
  | some r => simp [loadDeck, loadVal, h]
  | none => simp [loadDeck, loadVal, h, lookupA_setA_self]

theorem loadDeck_cache_ne (st : St) (d d' : String) (h : d' ≠ d) :
    lookupA (loadDeck st d).2.cache d' = lookupA st.cache d' := by
  cases hc : lookupA st.cache d with
  | some r => simp [loadDeck, hc]
  | none => simp [loadDeck, hc, lookupA_setA_ne _ _ _ _ h]

theorem loadVal_congr (st st' : St) (d : String)
    (hc : lookupA st'.cache d = lookupA st.cache d)
    (hf : lookupA st'.files d = lookupA st.files d) : loadVal st' d = loadVal st d := by
  rw [loadVal, loadVal, hc, hf]

theorem loadVal_of_cache_none (st : St) (d : String) (h : lookupA st.cache d = none) :
    loadVal st d = (lookupA st.files d).getD [] := by
  rw [loadVal, h]

theorem loadVal_of_cache_some (st : St) (d : String) (r : Record)
    (h : lookupA st.cache d = some r) : loadVal st d = r := by
  rw [loadVal, h]

theorem ingestDeck_ok (st : St) (rows : List Row) (d : String) (r : Record)
    (hm : mergeOpps (loadVal st d) (groupedOpps rows d) = .ok r) :
    ingestDeck st rows d =
      (saveDeck { (loadDeck st d).2 with cache := setA (loadDeck st d).2.cache d r } r d,
       none) := by
  rw [ingestDeck, loadDeck_fst, hm]

theorem ingestDeck_error (st : St) (rows : List Row) (d : String) (e : String × Record)
    (hm : mergeOpps (loadVal st d) (groupedOpps rows d) = .error e) :
    ingestDeck st rows d =
      ({ (loadDeck st d).2 with cache := setA (loadDeck st d).2.cache d e.2 },
       some ⟨d, e.1⟩) := by
  rw [ingestDeck, loadDeck_fst, hm]

theorem ingestDeck_files_ne (st : St) (rows : List Row) (d d' : String) (h : d' ≠ d) :
    lookupA (ingestDeck st rows d).1.files d' = lookupA st.files d' := by
  cases hm : mergeOpps (loadVal st d) (groupedOpps rows d) with
  | ok r =>
    rw [ingestDeck_ok st rows d r hm]
    show lookupA (setA (loadDeck st d).2.files d r) d' = _
    rw [lookupA_setA_ne _ _ _ _ h, loadDeck_files]
  | error e =>
    rw [ingestDeck_error st rows d e hm]
    show lookupA (loadDeck st d).2.files d' = _
    rw [loadDeck_files]

theorem ingestDeck_cache_ne (st : St) (rows : List Row) (d d' : String) (h : d' ≠ d) :
    lookupA (ingestDeck st rows d).1.cache d' = lookupA st.cache d' := by
  cases hm : mergeOpps (loadVal st d) (groupedOpps rows d) with
  | ok r =>
    rw [ingestDeck_ok st rows d r hm]
    show lookupA (setA (loadDeck st d).2.cache d r) d' = _
    rw [lookupA_setA_ne _ _ _ _ h, loadDeck_cache_ne st d d' h]
  | error e =>
    rw [ingestDeck_error st rows d e hm]
    show lookupA (setA (loadDeck st d).2.cache d e.2) d' = _
    rw [lookupA_setA_ne _ _ _ _ h, loadDeck_cache_ne st d d' h]

theorem ingestDeck_loadVal_ne (st : St) (rows : List Row) (d d' : String) (h : d' ≠ d) :
    loadVal (ingestDeck st rows d).1 d' = loadVal st d' :=
  loadVal_congr st _ d' (ingestDeck_cache_ne st rows d d' h)
    (ingestDeck_files_ne st rows d d' h)

theorem ingestDeck_decklist_mem (st : St) (rows : List Row) (d x : String)
    (h : x ∈ st.decklist) : x ∈ (ingestDeck st rows d).1.decklist := by
  cases hm : mergeOpps (loadVal st d) (groupedOpps rows d) with
  | ok r =>
    rw [ingestDeck_ok st rows d r hm]
    show x ∈ sortDedup ((loadDeck st d).2.decklist ++ [d])
    rw [mem_sortDedup, loadDeck_decklist]
    exact List.mem_append.2 (Or.inl h)
  | error e =>
    rw [ingestDeck_error st rows d e hm]
    show x ∈ (loadDeck st d).2.decklist
    rw [loadDeck_decklist]
    exact h

theorem ingestDeck_error_state (st : St) (rows : List Row) (d : String) (st' : St)
    (c : Conflict) (h : ingestDeck st rows d = (st', some c)) :
    st'.files = st.files ∧ st'.decklist = st.decklist ∧ c.deck = d ∧
      ∃ ext, lookupA st'.cache d = some (loadVal st d ++ ext) := by
  cases hm : mergeOpps (loadVal st d) (groupedOpps rows d) with
  | ok r =>
    rw [ingestDeck_ok st rows d r hm] at h
    cases h
  | error e =>
    rw [ingestDeck_error st rows d e hm] at h
    obtain ⟨hst, hc⟩ := Prod.mk.injEq .. ▸ h
    rcases mergeOpps_error_ext _ _ _ hm with ⟨ext, hext⟩
    refine ⟨?_, ?_, ?_, ext, ?_⟩
    · rw [← hst]
      exact loadDeck_files st d
    · rw [← hst]
      exact loadDeck_decklist st d
    · rw [← Option.some.inj hc]
    · rw [← hst]
      show lookupA (setA (loadDeck st d).2.cache d e.2) d = _
      rw [lookupA_setA_self, hext]

/-! Invariants of the sequential ingestion loop. -/

theorem ingestGo_files_ne (rows : List Row) : ∀ (ds : List String) (st : St) (d : String),
    d ∉ ds → lookupA (ingestGo rows st ds).1.files d = lookupA st.files d
  | [], st, d, _ => rfl
  | d1 :: ds, st, d, h => by
    have hne : d ≠ d1 := fun hh => h (hh ▸ List.mem_cons_self _ _)
    have htail : d ∉ ds := fun hh => h (List.mem_cons.2 (Or.inr hh))
    rw [ingestGo]
    cases hd : ingestDeck st rows d1 with
    | mk st' oc =>
      cases oc with
      | none =>
        have hst : (ingestDeck st rows d1).1 = st' := by rw [hd]
        show lookupA (ingestGo rows st' ds).1.files d = _
        rw [ingestGo_files_ne rows ds st' d htail, ← hst,
          ingestDeck_files_ne st rows d1 d hne]
      | some c =>
        have hst : (ingestDeck st rows d1).1 = st' := by rw [hd]
        show lookupA st'.files d = _
        rw [← hst, ingestDeck_files_ne st rows d1 d hne]

theorem ingestGo_cache_ne (rows : List Row) : ∀ (ds : List String) (st : St) (d : String),
    d ∉ ds → lookupA (ingestGo rows st ds).1.cache d = lookupA st.cache d
  | [], st, d, _ => rfl
  | d1 :: ds, st, d, h => by
    have hne : d ≠ d1 := fun hh => h (hh ▸ List.mem_cons_self _ _)
    have htail : d ∉ ds := fun hh => h (List.mem_cons.2 (Or.inr hh))
    rw [ingestGo]
    cases hd : ingestDeck st rows d1 with
    | mk st' oc =>
      cases oc with
      | none =>
        have hst : (ingestDeck st rows d1).1 = st' := by rw [hd]
        show lookupA (ingestGo rows st' ds).1.cache d = _
        rw [ingestGo_cache_ne rows ds st' d htail, ← hst,
          ingestDeck_cache_ne st rows d1 d hne]
      | some c =>
        have hst : (ingestDeck st rows d1).1 = st' := by rw [hd]
        show lookupA st'.cache d = _
        rw [← hst, ingestDeck_cache_ne st rows d1 d hne]

theorem ingestGo_decklist_mem (rows : List Row) : ∀ (ds : List String) (st : St) (x : String),
    x ∈ st.decklist → x ∈ (ingestGo rows st ds).1.decklist
  | [], st, x, h => h
  | d1 :: ds, st, x, h => by
    rw [ingestGo]
    cases hd : ingestDeck st rows d1 with
    | mk st' oc =>
      have hst : (ingestDeck st rows d1).1 = st' := by rw [hd]
      have hx : x ∈ st'.decklist := hst ▸ ingestDeck_decklist_mem st rows d1 x h
      cases oc with
      | none => exact ingestGo_decklist_mem rows ds st' x hx
      | some c => exact hx

theorem ingestGo_post (rows : List Row) : ∀ (ds : List String) (st st1 : St),
    ingestGo rows st ds = (st1, none) → ds.Nodup → ∀ d ∈ ds,
    ∃ rd, lookupA st1.cache d = some rd ∧ lookupA st1.files d = some rd ∧
      (∀ p ∈ groupedOpps rows d, lookupA rd p.1 = some p.2) ∧ d ∈ st1.decklist
  | [], _, _, _, _, d, hd => absurd hd (List.not_mem_nil d)
  | d1 :: ds, st, st1, h, hnd, d, hd => by
    have h' : (match ingestDeck st rows d1 with
        | (st', none) => ingestGo rows st' ds
        | (st', some c) => (st', some c)) = (st1, none) := h
    rcases List.nodup_cons.1 hnd with ⟨hd1, hndt⟩
    cases hdk : ingestDeck st rows d1 with
    | mk st' oc =>
      rw [hdk] at h'
      cases oc with
      | some c =>
        have h2 : (some c : Option Conflict) = none :=
          congrArg Prod.snd (show ((st', some c) : St × Option Conflict) = (st1, none) from h')
        cases h2
      | none =>
        have hgo : ingestGo rows st' ds = (st1, none) := h'
        have hst' : (ingestDeck st rows d1).1 = st' := by rw [hdk]
        rcases List.mem_cons.1 hd with hde | hde
        · subst hde
          cases hm : mergeOpps (loadVal st d) (groupedOpps rows d) with
          | error e =>
            rw [ingestDeck_error st rows d e hm] at hdk
            have h2 : (some (⟨d, e.1⟩ : Conflict) : Option Conflict) = none :=
              congrArg Prod.snd hdk
            cases h2
          | ok r =>
            rw [ingestDeck_ok st rows d r hm] at hdk
            have hsv :
                saveDeck
                  { (loadDeck st d).2 with cache := setA (loadDeck st d).2.cache d r } r d
                  = st' := congrArg Prod.fst hdk
            have hst1 : (ingestGo rows st' ds).1 = st1 := by rw [hgo]
            refine ⟨r, ?_, ?_, mergeOpps_lookup_batch _ _ _ hm, ?_⟩
            · rw [← hst1, ingestGo_cache_ne rows ds st' d hd1, ← hsv]
              show lookupA (setA (loadDeck st d).2.cache d r) d = some r
              exact lookupA_setA_self _ _ _
            · rw [← hst1, ingestGo_files_ne rows ds st' d hd1, ← hsv]
              show lookupA (setA (loadDeck st d).2.files d r) d = some r
              exact lookupA_setA_self _ _ _
            · have hmem : d ∈ st'.decklist := by
                rw [← hsv]
                show d ∈ sortDedup ((loadDeck st d).2.decklist ++ [d])
                rw [mem_sortDedup]
                exact List.mem_append.2 (Or.inr (List.mem_singleton.2 rfl))
              have := ingestGo_decklist_mem rows ds st' d hmem
              rw [hgo] at this
              exact this
        · rcases ingestGo_post rows ds st' st1 hgo hndt d hde with ⟨rd, h1, h2, h3, h4⟩
          exact ⟨rd, h1, h2, h3, h4⟩

theorem ingestDeck_decklist_cases (st : St) (rows : List Row) (d : String) :
    (ingestDeck st rows d).1.decklist = st.decklist ∨
      (ingestDeck st rows d).1.decklist = sortDedup (st.decklist ++ [d]) := by
  cases hm : mergeOpps (loadVal st d) (groupedOpps rows d) with
  | ok r =>
    refine Or.inr ?_
    rw [ingestDeck_ok st rows d r hm]
    show sortDedup ((loadDeck st d).2.decklist ++ [d]) = _
    rw [loadDeck_decklist]
  | error e =>
    refine Or.inl ?_
    rw [ingestDeck_error st rows d e hm]
    show (loadDeck st d).2.decklist = _
    rw [loadDeck_decklist]

theorem ingestGo_pairwise (rows : List Row) : ∀ (ds : List String) (st : St),
    st.decklist.Pairwise (· < ·) → (ingestGo rows st ds).1.decklist.Pairwise (· < ·)
  | [], _, h => h
  | d1 :: ds, st, h => by
    show (match ingestDeck st rows d1 with
        | (st', none) => ingestGo rows st' ds
        | (st', some c) => (st', some c)).1.decklist.Pairwise (· < ·)
    cases hdk : ingestDeck st rows d1 with
    | mk st' oc =>
      have hst' : (ingestDeck st rows d1).1 = st' := by rw [hdk]
      have hp : st'.decklist.Pairwise (· < ·) := by
        rcases ingestDeck_decklist_cases st rows d1 with hc | hc
        · rw [hst'] at hc
          exact hc ▸ h
        · rw [hst'] at hc
          exact hc ▸ pairwise_sortDedup _
      cases oc with
      | none => exact ingestGo_pairwise rows ds st' hp
      | some c => exact hp

theorem ingestGo_none_pairwise (rows : List Row) : ∀ (ds : List String) (st st1 : St),
    ingestGo rows st ds = (st1, none) → ds ≠ [] → st1.decklist.Pairwise (· < ·)
  | [], _, _, _, hne => absurd rfl hne
  | d1 :: ds, st, st1, h, _ => by
    have h' : (match ingestDeck st rows d1 with
        | (st', none) => ingestGo rows st' ds
        | (st', some c) => (st', some c)) = (st1, none) := h
    cases hdk : ingestDeck st rows d1 with
    | mk st' oc =>
      rw [hdk] at h'
      cases oc with
      | some c =>
        have h2 : (some c : Option Conflict) = none :=
          congrArg Prod.snd (show ((st', some c) : St × Option Conflict) = (st1, none) from h')
        cases h2
      | none =>
        have hgo : ingestGo rows st' ds = (st1, none) := h'
        cases hm : mergeOpps (loadVal st d1) (groupedOpps rows d1) with
        | error e =>
          rw [ingestDeck_error st rows d1 e hm] at hdk
          have h2 : (some (⟨d1, e.1⟩ : Conflict) : Option Conflict) = none :=
            congrArg Prod.snd hdk
          cases h2
        | ok r =>
          rw [ingestDeck_ok st rows d1 r hm] at hdk
          have hsv :
              saveDeck
                { (loadDeck st d1).2 with cache := setA (loadDeck st d1).2.cache d1 r } r d1
                = st' := congrArg Prod.fst hdk
          have hp : st'.decklist.Pairwise (· < ·) := by
            rw [← hsv]
            show (sortDedup ((loadDeck st d1).2.decklist ++ [d1])).Pairwise (· < ·)
            exact pairwise_sortDedup _
          have := ingestGo_pairwise rows ds st' hp
          rw [hgo] at this
          exact this

theorem ingestGo_rerun (rows : List Row) : ∀ (ds : List String) (st : St),
    st.decklist.Pairwise (· < ·) →
    (∀ d ∈ ds, ∃ rd, lookupA st.cache d = some rd ∧ lookupA st.files d = some rd ∧
      (∀ p ∈ groupedOpps rows d, lookupA rd p.1 = some p.2) ∧ d ∈ st.decklist) →
    ingestGo rows st ds = (st, none)
  | [], _, _, _ => rfl
  | d1 :: ds, st, hp, hyp => by
    rcases hyp d1 (List.mem_cons_self _ _) with ⟨rd, hc, hf, hbatch, hmem⟩
    have hld : loadDeck st d1 = (rd, st) := by
      rw [loadDeck, hc]
    have hlv : loadVal st d1 = rd := loadVal_of_cache_some st d1 rd hc
    have hm : mergeOpps (loadVal st d1) (groupedOpps rows d1) = .ok (loadVal st d1) := by
      rw [hlv]
      exact mergeOpps_self rd _ hbatch
    have hdk : ingestDeck st rows d1 = (st, none) := by
      rw [ingestDeck_ok st rows d1 (loadVal st d1) hm, hld, hlv]
      show (saveDeck { st with cache := setA st.cache d1 rd } rd d1, none) = (st, none)
      rw [setA_eq_of_lookupA st.cache d1 rd hc]
      show (saveDeck st rd d1, none) = (st, none)
      rw [saveDeck, setA_eq_of_lookupA st.files d1 rd hf,
        sortDedup_snoc_mem st.decklist d1 hp hmem]
    show (match ingestDeck st rows d1 with
        | (st', none) => ingestGo rows st' ds
        | (st', some c) => (st', some c)) = (st, none)
    rw [hdk]
    exact ingestGo_rerun rows ds st hp
      (fun d hd => hyp d (List.mem_cons.2 (Or.inr hd)))

theorem ingestGo_conflict_deck_mem (rows : List Row) : ∀ (ds : List String) (st st1 : St)
    (c : Conflict), ingestGo rows st ds = (st1, some c) → c.deck ∈ ds
  | [], st, st1, c, h => by
    have h2 : (none : Option Conflict) = some c :=
      congrArg Prod.snd (show ((st, none) : St × Option Conflict) = (st1, some c) from h)
    cases h2
  | d1 :: ds, st, st1, c, h => by
    have h' : (match ingestDeck st rows d1 with
        | (st', none) => ingestGo rows st' ds
        | (st', some c) => (st', some c)) = (st1, some c) := h
    cases hdk : ingestDeck st rows d1 with
    | mk st' oc =>
      rw [hdk] at h'
      cases oc with
      | none =>
        exact List.mem_cons.2 (Or.inr (ingestGo_conflict_deck_mem rows ds st' st1 c h'))
      | some c0 =>
        have hc : c0 = c :=
          Option.some.inj (congrArg Prod.snd
            (show ((st', some c0) : St × Option Conflict) = (st1, some c) from h'))
        have := (ingestDeck_error_state st rows d1 st' c0 hdk).2.2.1
        rw [hc] at this
        exact List.mem_cons.2 (Or.inl this)

theorem ingestGo_conflict_cache (rows : List Row) : ∀ (ds : List String) (st st1 : St)
    (c : Conflict), ingestGo rows st ds = (st1, some c) → ds.Nodup →
    ∃ ext, lookupA st1.cache c.deck = some (loadVal st c.deck ++ ext) ∧
      lookupA st1.files c.deck = lookupA st.files c.deck
  | [], st, st1, c, h, _ => by
    have h2 : (none : Option Conflict) = some c :=
      congrArg Prod.snd (show ((st, none) : St × Option Conflict) = (st1, some c) from h)
    cases h2
  | d1 :: ds, st, st1, c, h, hnd => by
    have h' : (match ingestDeck st rows d1 with
        | (st', none) => ingestGo rows st' ds
        | (st', some c) => (st', some c)) = (st1, some c) := h
    rcases List.nodup_cons.1 hnd with ⟨hd1, hndt⟩
    cases hdk : ingestDeck st rows d1 with
    | mk st' oc =>
      rw [hdk] at h'
      have hst' : (ingestDeck st rows d1).1 = st' := by rw [hdk]
      cases oc with
      | none =>
        have hmem : c.deck ∈ ds := ingestGo_conflict_deck_mem rows ds st' st1 c h'
        have hne : c.deck ≠ d1 := fun hh => hd1 (hh ▸ hmem)
        rcases ingestGo_conflict_cache rows ds st' st1 c h' hndt with ⟨ext, h1, h2⟩
        refine ⟨ext, ?_, ?_⟩
        · rw [h1, ← hst', ingestDeck_loadVal_ne st rows d1 c.deck hne]
        · rw [h2, ← hst', ingestDeck_files_ne st rows d1 c.deck hne]
      | some c0 =>
        have hpair : ((st', some c0) : St × Option Conflict) = (st1, some c) := h'
        have hs : st' = st1 := congrArg Prod.fst hpair
        have hc : c0 = c := Option.some.inj (congrArg Prod.snd hpair)
        rcases ingestDeck_error_state st rows d1 st' c0 hdk with ⟨hfl, _, hcd, ext, hch⟩
        refine ⟨ext, ?_, ?_⟩
        · rw [← hs, ← hc, hcd]
          exact hch
        · rw [← hs, ← hc, hcd, hfl]

theorem ingestGo_stale_conflict (rows : List Row) (d o : String) (v w : Rat) :
    ∀ (ds : List String) (st : St), d ∈ ds → ds.Nodup →
    (o, v) ∈ groupedOpps rows d → lookupA (loadVal st d) o = some w → v ≠ w →
    (ingestGo rows st ds).2 ≠ none ∧
      lookupA (ingestGo rows st ds).1.files d = lookupA st.files d
  | [], _, hd, _, _, _, _ => absurd hd (List.not_mem_nil d)
  | d1 :: ds, st, hd, hnd, hmem, hw, hne => by
    rcases List.nodup_cons.1 hnd with ⟨hd1, hndt⟩
    show ((match ingestDeck st rows d1 with
        | (st', none) => ingestGo rows st' ds
        | (st', some c) => (st', some c)).2 ≠ none) ∧
      lookupA (match ingestDeck st rows d1 with
        | (st', none) => ingestGo rows st' ds
        | (st', some c) => (st', some c)).1.files d = lookupA st.files d
    rcases List.mem_cons.1 hd with hde | hde
    · subst hde
      rcases mergeOpps_error_of_mem (loadVal st d) (groupedOpps rows d) o v w hmem hw hne
        with ⟨e, he⟩
      rw [ingestDeck_error st rows d e he]
      refine ⟨fun hh => Option.noConfusion hh, ?_⟩
      show lookupA (loadDeck st d).2.files d = _
      rw [loadDeck_files]
    · cases hdk : ingestDeck st rows d1 with
      | mk st' oc =>
        have hst' : (ingestDeck st rows d1).1 = st' := by rw [hdk]
        have hdne : d ≠ d1 := fun hh => hd1 (hh ▸ hde)
        have hfl : lookupA st'.files d = lookupA st.files d := by
          rw [← hst', ingestDeck_files_ne st rows d1 d hdne]
        cases oc with
        | none =>
          have hlv : loadVal st' d = loadVal st d := by
            rw [← hst', ingestDeck_loadVal_ne st rows d1 d hdne]
          have hw' : lookupA (loadVal st' d) o = some w := by rw [hlv]; exact hw
          rcases ingestGo_stale_conflict rows d o v w ds st' hde hndt hmem hw' hne
            with ⟨h1, h2⟩
          exact ⟨h1, by rw [h2, hfl]⟩
        | some c =>
          exact ⟨fun hh => Option.noConfusion hh, hfl⟩


/-- Opponents grouped under deck `d` only arise from batch rows of deck `d`. -/
theorem groupedOpps_deck_mem (rows : List Row) (d o : String) (v : Rat)
    (h : (o, v) ∈ groupedOpps rows d) : d ∈ rows.map Row.deck := by
  rw [groupedOpps] at h
  rcases List.mem_map.1 h with ⟨o', ho', heq⟩
  have ho2 : o' ∈ oppsOf rows d := (mem_sortDedup o' _).1 ho'
  rw [oppsOf] at ho2
  rcases List.mem_filterMap.1 ho2 with ⟨r, hr, hsome⟩
  by_cases hdk : r.deck = d
  · exact List.mem_map.2 ⟨r, hr, hdk⟩
  · rw [if_neg hdk] at hsome
    cases hsome

/-- C1 counterexample: a batch holding two rows with different outcomes for the
same ordered (deck, opponent) pair does not raise a conflict; the two outcomes
are averaged and the averaged record is persisted. -/
theorem ingest_no_conflict_within_batch :
    (⟨"A", "B", .win⟩ : Row).deck = (⟨"A", "B", .loss⟩ : Row).deck ∧
    (⟨"A", "B", .win⟩ : Row).opp = (⟨"A", "B", .loss⟩ : Row).opp ∧
    (⟨"A", "B", .win⟩ : Row).outcome ≠ (⟨"A", "B", .loss⟩ : Row).outcome ∧
    (ingest ⟨[], [], [], []⟩ rowsAvgPair).2 = none ∧
    lookupA (ingest ⟨[], [], [], []⟩ rowsAvgPair).1.files "A" = some [("B", 0)] := by
  with_unfolding_all decide

/-- C1 (amended): differing outcomes inside one batch are averaged, and a
conflict is raised exactly against the stored ledger: when the batch average
for a pair differs from the value already stored in the deck's record, ingest
raises a conflict error and that deck's persisted record is left unchanged. -/
theorem ingest_conflict_on_stored_mismatch (st : St) (rows : List Row) (d o : String)
    (v w : Rat) (hg : (o, v) ∈ groupedOpps rows d)
    (hw : lookupA (loadVal st d) o = some w) (hne : v ≠ w) :
    (ingest st rows).2 ≠ none ∧
      lookupA (ingest st rows).1.files d = lookupA st.files d := by
  rw [ingest]
  have hd : d ∈ sortDedup (rows.map Row.deck) := by
    rw [mem_sortDedup]
    exact groupedOpps_deck_mem rows d o v hg
  exact ingestGo_stale_conflict rows d o v w _ st hd (nodup_sortDedup _) hg hw hne

/-- Witness for the amended C1 at a concrete input: a stored win re-ingested as
a loss raises a conflict and leaves the stored file unchanged. -/
theorem ingest_conflict_on_stored_mismatch_witness :
    (ingest stOneStored rowsConflict).2 ≠ none ∧
      lookupA (ingest stOneStored rowsConflict).1.files "A" =
        lookupA stOneStored.files "A" :=
  ingest_conflict_on_stored_mismatch stOneStored rowsConflict "A" "B" (-1) 1
    (by with_unfolding_all decide) (by with_unfolding_all decide) (by with_unfolding_all decide)

/-- C6: re-ingesting a batch that already merged cleanly is a no-op — every
averaged value agrees with what the first pass stored, so no conflict is
raised and the files, registry and cache are all left exactly as the first
ingestion produced them. -/
theorem ingest_idempotent (st st1 : St) (rows : List Row)
    (h : ingest st rows = (st1, none)) : ingest st1 rows = (st1, none) := by
  by_cases hds : sortDedup (rows.map Row.deck) = []
  · rw [ingest, hds] at h
    have h' : ((st, none) : St × Option Conflict) = (st1, none) := h
    have hs : st = st1 := congrArg Prod.fst h'
    rw [ingest, hds]
    show ((st1, none) : St × Option Conflict) = (st1, none)
    rfl
  · rw [ingest] at h
    have hpost := ingestGo_post rows _ st st1 h (nodup_sortDedup _)
    have hpair := ingestGo_none_pairwise rows _ st st1 h hds
    rw [ingest]
    exact ingestGo_rerun rows _ st1 hpair hpost

/-- Witness for C6 at a concrete input: ingesting a one-row batch into the
empty ledger and then ingesting it again returns the same state both times. -/
theorem ingest_idempotent_witness :
    ingest ⟨[], [], [], []⟩ rowsSingle = (stAfterSingle, none) ∧
    ingest stAfterSingle rowsSingle = (stAfterSingle, none) :=
  ⟨by with_unfolding_all decide,
   ingest_idempotent ⟨[], [], [], []⟩ stAfterSingle rowsSingle (by with_unfolding_all decide)⟩

/-- C9: after every save the registry is strictly sorted, duplicate-free, keeps
every identifier it contained before the save, and contains the saved deck. -/
theorem saveDeck_registry (st : St) (r : Record) (d : String) :
    (saveDeck st r d).decklist.Pairwise (· < ·) ∧
    (saveDeck st r d).decklist.Nodup ∧
    (∀ x ∈ st.decklist, x ∈ (saveDeck st r d).decklist) ∧
    d ∈ (saveDeck st r d).decklist := by
  refine ⟨pairwise_sortDedup _, nodup_sortDedup _, fun x hx => ?_, ?_⟩
  · show x ∈ sortDedup (st.decklist ++ [d])
    rw [mem_sortDedup]
    exact List.mem_append.2 (Or.inl hx)
  · show d ∈ sortDedup (st.decklist ++ [d])
    rw [mem_sortDedup]
    exact List.mem_append.2 (Or.inr (List.mem_singleton.2 rfl))

/-- Witness for C9 at a concrete input: saving deck C over an unsorted registry
leaves it sorted and keeps the pre-existing deck B. -/
theorem saveDeck_registry_witness :
    (saveDeck ⟨[], [], ["B", "A"], []⟩ [] "C").decklist.Pairwise (· < ·) ∧
    "B" ∈ (saveDeck ⟨[], [], ["B", "A"], []⟩ [] "C").decklist := by
  have h := saveDeck_registry ⟨[], [], ["B", "A"], []⟩ [] "C"
  exact ⟨h.1, h.2.2.1 "B" (by with_unfolding_all decide)⟩

/-- C10: when ingest raises a conflict for deck `d` (loaded fresh, not from a
stale cache), the persisted record of `d` is unchanged, while the in-process
cache holds the loaded record extended with the entries inserted before the
conflict; whenever at least one entry was inserted, a subsequent load of `d`
in the same process disagrees with the persisted record. -/
theorem ingest_conflict_cache_retains (st st1 : St) (rows : List Row) (d o : String)
    (h : ingest st rows = (st1, some ⟨d, o⟩)) (hc : lookupA st.cache d = none) :
    lookupA st1.files d = lookupA st.files d ∧
    ∃ ins, lookupA st1.cache d = some ((lookupA st.files d).getD [] ++ ins) ∧
      (ins ≠ [] → loadVal st1 d ≠ (lookupA st1.files d).getD []) := by
  rw [ingest] at h
  rcases ingestGo_conflict_cache rows _ st st1 ⟨d, o⟩ h (nodup_sortDedup _) with ⟨ext, h1, h2⟩
  have hlv : loadVal st d = (lookupA st.files d).getD [] := loadVal_of_cache_none st d hc
  refine ⟨h2, ext, by rw [h1, hlv], fun hne => ?_⟩
  have hl1 : loadVal st1 d = loadVal st d ++ ext := loadVal_of_cache_some st1 d _ h1
  rw [hl1, h2, ← hlv]
  intro heq
  have hlen := congrArg List.length heq
  rw [List.length_append] at hlen
  have hz : ext.length = 0 := by omega
  exact hne (List.length_eq_zero.1 hz)

/-- Witness for C10 at a concrete input: the batch inserts opponent A2 into
deck A's record and then conflicts on B; the file keeps only the B entry while
the cached record also holds A2, so loading now disagrees with the file. -/
theorem ingest_conflict_cache_retains_witness :
    lookupA stAfterConflict.files "A" = lookupA stOneStored.files "A" ∧
    ∃ ins, lookupA stAfterConflict.cache "A" =
        some ((lookupA stOneStored.files "A").getD [] ++ ins) ∧
      (ins ≠ [] → loadVal stAfterConflict "A" ≠ (lookupA stAfterConflict.files "A").getD []) :=
  ingest_conflict_cache_retains stOneStored stAfterConflict rowsInsertThenConflict "A" "B"
    (by with_unfolding_all decide) (by with_unfolding_all decide)


theorem collectGuesses_eq (qc : List String) : ∀ r : Record,
    collectGuesses qc r =
      (r.filter (fun p => decide (1 < greedySim qc (splitCards p.1)))).map (fun p => p.2)
  | [] => rfl
  | (opp, v) :: t => by
    by_cases h : 1 < greedySim qc (splitCards opp)
    · rw [collectGuesses, if_pos h, collectGuesses_eq qc t]
      simp [List.filter_cons, h]
    · rw [collectGuesses, if_neg h, collectGuesses_eq qc t]
      simp [List.filter_cons, h]

/-- C4: the guess list collects exactly the stored results of the recorded
opponents whose greedy shared-card count with the query opponent exceeds 1;
in particular a record in which every entry shares at most one card with the
query yields an empty guess list. -/
theorem getGuesses_spec (st : St) (d o : String) :
    getGuesses st d o =
      ((loadVal st d).filter
        (fun p => decide (1 < greedySim (splitCards o) (splitCards p.1)))).map
        (fun p => p.2) ∧
    ((∀ p ∈ loadVal st d, greedySim (splitCards o) (splitCards p.1) ≤ 1) →
      getGuesses st d o = []) := by
  refine ⟨collectGuesses_eq _ _, fun h => ?_⟩
  rw [getGuesses, collectGuesses_eq]
  rw [List.map_eq_nil_iff, List.filter_eq_nil_iff]
  intro p hp
  simp only [decide_eq_true_eq, not_lt]
  exact h p hp

/-- Witness for C4 at a concrete input: the single stored opponent shares only
the card x with the query, so the guess list is empty. -/
theorem getGuesses_spec_witness :
    (∀ p ∈ loadVal stSimOne "A", greedySim (splitCards "x | y | w") (splitCards p.1) ≤ 1) ∧
    getGuesses stSimOne "A" "x | y | w" = [] :=
  ⟨by with_unfolding_all decide,
   (getGuesses_spec stSimOne "A" "x | y | w").2 (by with_unfolding_all decide)⟩

/-- C5: the estimate is the arithmetic mean of the forward guesses together
with the negated reverse guesses, and it is the explicit absent value `none`
(never the number 0) exactly when both guess lists are empty. -/
theorem guessResult_spec (st : St) (d o : String) :
    (guessResult st d o = none ↔ getGuesses st d o = [] ∧ getGuesses st o d = []) ∧
    (∀ v, guessResult st d o = some v →
      v = (getGuesses st d o ++ (getGuesses st o d).map (fun g => -g)).sum /
        ((getGuesses st d o ++ (getGuesses st o d).map (fun g => -g)).length : Rat)) := by
  by_cases h : (getGuesses st d o ++ (getGuesses st o d).map (fun g => -g)) = []
  · have hr : guessResult st d o = none := by
      simp only [guessResult]
      rw [if_pos (by rw [h]; rfl)]
    rcases List.append_eq_nil.1 h with ⟨h1, h2⟩
    refine ⟨⟨fun _ => ⟨h1, List.map_eq_nil_iff.1 h2⟩, fun _ => hr⟩, fun v hv => ?_⟩
    rw [hr] at hv
    cases hv
  · have hr : guessResult st d o =
        some ((getGuesses st d o ++ (getGuesses st o d).map (fun g => -g)).sum /
          ((getGuesses st d o ++ (getGuesses st o d).map (fun g => -g)).length : Rat)) := by
      simp only [guessResult]
      rw [if_neg (by simpa [List.isEmpty_iff] using h)]
    refine ⟨⟨fun hn => ?_, fun hpair => ?_⟩, fun v hv => ?_⟩
    · rw [hr] at hn
      cases hn
    · exact absurd (by rw [hpair.1, hpair.2]; rfl) h
    · rw [hr] at hv
      exact (Option.some.inj hv).symm

/-- Witness for C5 at concrete inputs: no evidence in either direction yields
the absent value, and a single forward guess of 1 averages to 1. -/
theorem guessResult_spec_witness :
    guessResult stSimTwo "B" "C" = none ∧
    (1 : Rat) = (getGuesses stSimTwo "A" "x | y | w" ++
        (getGuesses stSimTwo "x | y | w" "A").map (fun g => -g)).sum /
      ((getGuesses stSimTwo "A" "x | y | w" ++
        (getGuesses stSimTwo "x | y | w" "A").map (fun g => -g)).length : Rat) :=
  ⟨(guessResult_spec stSimTwo "B" "C").1.2
      ⟨by with_unfolding_all decide, by with_unfolding_all decide⟩,
   (guessResult_spec stSimTwo "A" "x | y | w").2 1 (by with_unfolding_all decide)⟩


/-! Properties of the lexicographic key comparison and the stable sort. -/

theorem lexLt_irrefl : ∀ k : List Rat, lexLt k k = false
  | [] => rfl
  | a :: as => by
    rw [lexLt, if_neg (lt_irrefl a), if_neg (lt_irrefl a)]
    exact lexLt_irrefl as

theorem lexLt_asymm : ∀ a b : List Rat, lexLt a b = true → lexLt b a = false
  | a, [], h => by rw [lexLt] at h; cases h
  | [], b :: bs, _ => rfl
  | a :: as, b :: bs, h => by
    rw [lexLt] at h ⊢
    by_cases hab : a < b
    · rw [if_neg (asymm hab), if_pos hab]
    · rw [if_neg hab] at h
      by_cases hba : b < a
      · rw [if_pos hba] at h
        cases h
      · rw [if_neg hba] at h
        rw [if_neg hba, if_neg hab]
        exact lexLt_asymm as bs h

theorem lexLt_false_trans : ∀ a b c : List Rat,
    lexLt a b = false → lexLt b c = false → lexLt a c = false
  | a, b, [], _, _ => by cases a <;> rfl
  | a, [], c :: cs, h1, h2 => by rw [lexLt] at h2; cases h2
  | [], b :: bs, c :: cs, h1, h2 => by rw [lexLt] at h1; cases h1
  | a :: as, b :: bs, c :: cs, h1, h2 => by
    rw [lexLt] at h1 h2 ⊢
    by_cases hab : a < b
    · rw [if_pos hab] at h1
      cases h1
    · rw [if_neg hab] at h1
      by_cases hbc : b < c
      · rw [if_pos hbc] at h2
        cases h2
      · rw [if_neg hbc] at h2
        by_cases hba : b < a
        · have hca : c < a := lt_of_le_of_lt (le_of_not_lt hbc) hba
          rw [if_neg (asymm hca), if_pos hca]
        · have hab2 : a = b := le_antisymm (le_of_not_lt hba) (le_of_not_lt hab)
          by_cases hcb : c < b
          · have hca : c < a := hab2 ▸ hcb
            rw [if_neg (asymm hca), if_pos hca]
          · have hbc2 : b = c := le_antisymm (le_of_not_lt hcb) (le_of_not_lt hbc)
            rw [if_neg hba] at h1
            rw [if_neg hcb] at h2
            have hac : ¬a < c := by rw [← hbc2]; exact hab
            have hca : ¬c < a := by rw [← hbc2]; exact hba
            rw [if_neg hac, if_neg hca]
            exact lexLt_false_trans as bs cs h1 h2

theorem perm_insDesc {α : Type} (key : α → List Rat) (x : α) :
    ∀ l : List α, (insDesc key x l).Perm (x :: l)
  | [] => List.Perm.refl _
  | y :: ys => by
    rw [insDesc]
    by_cases h : lexLt (key x) (key y)
    · rw [if_pos h]
      exact List.Perm.trans (List.Perm.cons y (perm_insDesc key x ys))
        (List.Perm.swap x y ys)
    · rw [if_neg h]

theorem sortDesc_cons {α : Type} (key : α → List Rat) (x : α) (l : List α) :
    sortDesc key (x :: l) = insDesc key x (sortDesc key l) := rfl

theorem sortDesc_perm {α : Type} (key : α → List Rat) :
    ∀ l : List α, (sortDesc key l).Perm l
  | [] => List.Perm.refl _
  | x :: l => by
    rw [sortDesc_cons]
    exact List.Perm.trans (perm_insDesc key x (sortDesc key l))
      (List.Perm.cons x (sortDesc_perm key l))

theorem pairwise_insDesc {α : Type} (key : α → List Rat) (x : α) :
    ∀ l : List α, l.Pairwise (fun a b => lexLt (key a) (key b) = false) →
      (insDesc key x l).Pairwise (fun a b => lexLt (key a) (key b) = false)
  | [], _ => List.pairwise_singleton _ _
  | y :: ys, h => by
    rw [List.pairwise_cons] at h
    rw [insDesc]
    by_cases hxy : lexLt (key x) (key y)
    · rw [if_pos hxy]
      refine List.pairwise_cons.2 ⟨?_, pairwise_insDesc key x ys h.2⟩
      intro z hz
      rcases List.mem_cons.1 ((perm_insDesc key x ys).mem_iff.1 hz) with hz2 | hz2
      · exact hz2 ▸ lexLt_asymm _ _ hxy
      · exact h.1 z hz2
    · rw [if_neg hxy]
      refine List.pairwise_cons.2 ⟨?_, List.pairwise_cons.2 h⟩
      intro z hz
      rcases List.mem_cons.1 hz with hz2 | hz2
      · rw [hz2]
        exact Bool.not_eq_true _ ▸ hxy
      · exact lexLt_false_trans _ _ _ (Bool.not_eq_true _ ▸ hxy) (h.1 z hz2)

theorem pairwise_sortDesc {α : Type} (key : α → List Rat) :
    ∀ l : List α, (sortDesc key l).Pairwise (fun a b => lexLt (key a) (key b) = false)
  | [] => List.Pairwise.nil
  | x :: l => by
    rw [sortDesc_cons]
    exact pairwise_insDesc key x (sortDesc key l) (pairwise_sortDesc key l)

theorem filter_insDesc {α : Type} [DecidableEq α] (key : α → List Rat) (x : α) (k : List Rat) :
    ∀ l : List α, (insDesc key x l).filter (fun r => decide (key r = k)) =
      if key x = k then x :: l.filter (fun r => decide (key r = k))
      else l.filter (fun r => decide (key r = k))
  | [] => by
    rw [insDesc]
    by_cases hxk : key x = k
    · simp [List.filter_cons, hxk]
    · simp [List.filter_cons, hxk]
  | y :: ys => by
    rw [insDesc]
    by_cases hxy : lexLt (key x) (key y)
    · rw [if_pos hxy, List.filter_cons, filter_insDesc key x k ys, List.filter_cons]
      by_cases hyk : key y = k
      · have hxk : ¬key x = k := by
          intro hh
          rw [hh, ← hyk, lexLt_irrefl] at hxy
          cases hxy
        simp [hyk, hxk]
      · by_cases hxk : key x = k
        · simp [hyk, hxk]
        · simp [hyk, hxk]
    · rw [if_neg hxy]
      by_cases hxk : key x = k
      · rw [if_pos hxk, List.filter_cons]
        simp [hxk]
      · rw [if_neg hxk, List.filter_cons]
        simp [hxk]

theorem filter_sortDesc {α : Type} [DecidableEq α] (key : α → List Rat) (k : List Rat) :
    ∀ l : List α, (sortDesc key l).filter (fun r => decide (key r = k)) =
      l.filter (fun r => decide (key r = k))
  | [] => rfl
  | x :: l => by
    rw [sortDesc_cons, filter_insDesc key x k (sortDesc key l), List.filter_cons]
    by_cases hxk : key x = k
    · rw [if_pos hxk, filter_sortDesc key k l]
      simp [hxk]
    · rw [if_neg hxk, filter_sortDesc key k l]
      simp [hxk]


/-! Lemmas about the suggestion table pipeline. -/

theorem sumOpt_cons_some (v : Rat) (t : List (Option Rat)) :
    sumOpt (some v :: t) = v + sumOpt t := by
  rw [sumOpt, sumOpt]
  simp [List.filterMap_cons]

theorem sumOpt_cons_none (t : List (Option Rat)) : sumOpt (none :: t) = sumOpt t := by
  rw [sumOpt, sumOpt]
  simp [List.filterMap_cons]

theorem sumOpt_eq : ∀ l : List (Option Rat), sumOpt l = (l.map (fun o => o.getD 0)).sum
  | [] => rfl
  | some v :: t => by
    rw [sumOpt_cons_some, sumOpt_eq t, List.map_cons, List.sum_cons]
    rfl
  | none :: t => by
    rw [sumOpt_cons_none, sumOpt_eq t, List.map_cons, List.sum_cons]
    exact (zero_add _).symm

theorem lookupA_filter_key {α : Type} (q : String → Bool) :
    ∀ (l : List (String × α)) (k : String),
      lookupA (l.filter (fun p => q p.1)) k = if q k then lookupA l k else none
  | [], k => by cases hq : q k <;> simp [lookupA, hq]
  | (k0, v0) :: t, k => by
    rw [List.filter_cons]
    by_cases hk : k0 = k
    · subst hk
      cases hq : q k0 with
      | true => simp [lookupA, hq]
      | false => simp [lookupA, hq, lookupA_filter_key q t k0]
    · cases hq : q k0 with
      | true => simp [lookupA, hk, lookupA_filter_key q t k]
      | false => simp [lookupA, hk, lookupA_filter_key q t k]

theorem lookupA_negRecord : ∀ (r : Record) (k : String),
    lookupA (negRecord r) k = (lookupA r k).map (fun v => -v)
  | [], _ => rfl
  | (k0, v0) :: t, k => by
    show lookupA ((k0, -v0) :: negRecord t) k = _
    by_cases hk : k0 = k
    · simp [lookupA, hk]
    · simp [lookupA, hk, lookupA_negRecord t k]

theorem cell_eq (st : St) (g d : String) (hg : st.decklist.contains g = true) :
    cell st g d = if isBanned st.banlist d then none
      else (lookupA (loadVal st g) d).map (fun w => -w) := by
  rw [cell, filteredRecord, if_pos hg, removeBanlist,
    lookupA_filter_key (fun s => !isBanned st.banlist s) (negRecord (loadVal st g)) d,
    lookupA_negRecord]
  cases hb : isBanned st.banlist d <;> simp [hb]

theorem mem_rowIndex_iff (st : St) (G : List String) (d : String) :
    d ∈ rowIndex st G ↔ ∃ g ∈ G, (cell st g d).isSome = true := by
  rw [rowIndex, mem_sortDedup, List.mem_flatMap]
  constructor
  · rintro ⟨g, hg, hd⟩
    refine ⟨g, hg, ?_⟩
    rw [cell, lookupA_isSome_iff_mem_keys]
    exact hd
  · rintro ⟨g, hg, hd⟩
    refine ⟨g, hg, ?_⟩
    rw [cell, lookupA_isSome_iff_mem_keys] at hd
    exact hd

theorem getSuggestions_none_eq (st : St) (G : List String) (est : Bool) :
    getSuggestions st G none est = sortDesc sortKey (preRows st G est) := rfl

theorem getSuggestions_some_eq (st : St) (G : List String) (t : Rat) (est : Bool) :
    getSuggestions st G (some t) est =
      sortDesc sortKey ((preRows st G est).filter (fun r => decide (t < r.known))) := rfl

theorem mem_getSuggestions_none (st : St) (G : List String) (est : Bool) (r : SugRow) :
    r ∈ getSuggestions st G none est ↔ ∃ d ∈ rowIndex st G, mkRow st G est d = r := by
  rw [getSuggestions_none_eq, (sortDesc_perm sortKey _).mem_iff, preRows, List.mem_map]

/-- C2 counterexample: deck D stores a result against gauntlet member G, the
spec's two-directional lookup scores it 1, but the program's known score for D
is 0 and D does not even appear as a row of the suggestion table. -/
theorem knownScore_ignores_own_record :
    specKnownScore stOwnOnly "D" ["G"] = 1 ∧
    knownScore stOwnOnly ["G"] "D" = 0 ∧
    (getSuggestions stOwnOnly ["G"] none false).map SugRow.deck = [] := by
  with_unfolding_all decide

/-- C2 (amended): the known score of a deck sums, per gauntlet opponent, the
negation of the value the opponent's own record stores for the deck (0 when
absent or banlisted); the deck's own record is never consulted, and the known
column of every output row is exactly this score. -/
theorem knownScore_reverse_lookup (st : St) (G : List String) (d : String) :
    knownScore st G d = (G.map (fun g => (cell st g d).getD 0)).sum ∧
    (∀ g, st.decklist.contains g = true →
      cell st g d = if isBanned st.banlist d then none
        else (lookupA (loadVal st g) d).map (fun w => -w)) ∧
    (∀ (est : Bool), ∀ r ∈ getSuggestions st G none est, r.known = knownScore st G r.deck) := by
  refine ⟨?_, fun g hg => cell_eq st g d hg, fun est r hr => ?_⟩
  · rw [knownScore, sumOpt_eq, List.map_map]
    rfl
  · rcases (mem_getSuggestions_none st G est r).1 hr with ⟨d0, _, heq⟩
    rw [← heq]
    rfl

/-- Witness for the amended C2 at a concrete input: the lone gauntlet member A
stores 1 against B, so B's cell is the negated stored value and B's known
score is the summed cell value. -/
theorem knownScore_reverse_lookup_witness :
    cell stOneStored "A" "B" =
      (if isBanned stOneStored.banlist "B" then none
       else (lookupA (loadVal stOneStored "A") "B").map (fun w => -w)) ∧
    knownScore stOneStored ["A"] "B" =
      ((["A"].map (fun g => (cell stOneStored g "B").getD 0)).sum) :=
  ⟨(knownScore_reverse_lookup stOneStored ["A"] "B").2.1 "A" (by decide),
   (knownScore_reverse_lookup stOneStored ["A"] "B").1⟩

/-- C3 counterexample: deck X is in the registry but appears in no gauntlet
member's record, and the suggestion table built against gauntlet [G] has only
the row D — not one row per registered deck. -/
theorem suggestions_rows_not_all_registry :
    "X" ∈ stRegistryX.decklist ∧
    (getSuggestions stRegistryX ["G"] none false).map SugRow.deck = ["D"] := by
  with_unfolding_all decide

/-- C3 (amended): the suggestion table has one row exactly for every deck that
appears (surviving the banlist filter) in some gauntlet member's record, and
each present cell is the negation of that member's stored result against the
row's deck. -/
theorem getSuggestions_rows_from_records (st : St) (G : List String) (est : Bool) :
    (∀ d, (∃ r ∈ getSuggestions st G none est, r.deck = d) ↔
      ∃ g ∈ G, (cell st g d).isSome = true) ∧
    (∀ r ∈ getSuggestions st G none est, r.cells = G.map (fun g => cell st g r.deck)) ∧
    (∀ g d, st.decklist.contains g = true →
      cell st g d = if isBanned st.banlist d then none
        else (lookupA (loadVal st g) d).map (fun w => -w)) := by
  refine ⟨fun d => ?_, fun r hr => ?_, fun g d hg => cell_eq st g d hg⟩
  · rw [← mem_rowIndex_iff]
    constructor
    · rintro ⟨r, hr, hd⟩
      rcases (mem_getSuggestions_none st G est r).1 hr with ⟨d0, hd0, heq⟩
      have : r.deck = d0 := by
        rw [← heq]
        rfl
      rw [hd] at this
      exact this ▸ hd0
    · intro hd
      exact ⟨mkRow st G est d, (mem_getSuggestions_none st G est _).2 ⟨d, hd, rfl⟩, rfl⟩
  · rcases (mem_getSuggestions_none st G est r).1 hr with ⟨d0, _, heq⟩
    rw [← heq]
    rfl

/-- Witness for the amended C3 at a concrete input: D is a row of the table
because member G's record stores a result for it, and D's cell is the negated
stored value. -/
theorem getSuggestions_rows_from_records_witness :
    (∃ r ∈ getSuggestions stRegistryX ["G"] none false, r.deck = "D") ∧
    cell stRegistryX "G" "D" =
      (if isBanned stRegistryX.banlist "D" then none
       else (lookupA (loadVal stRegistryX "G") "D").map (fun w => -w)) :=
  ⟨((getSuggestions_rows_from_records stRegistryX ["G"] false).1 "D").2
      ⟨"G", List.mem_singleton.2 rfl, by with_unfolding_all decide⟩,
   (getSuggestions_rows_from_records stRegistryX ["G"] false).2.2 "G" "D" (by decide)⟩

/-- C7: with a threshold supplied the table keeps exactly the rows whose known
score strictly exceeds it; the result is sorted descending on the priority key
list — known score, then estimated score when estimation is enabled, then
global score — and the sort is stable: rows with equal keys appear in their
pre-sort (filtered table) order, with no secondary key such as the deck name. -/
theorem getSuggestions_threshold_sort (st : St) (G : List String) (t : Rat) (est : Bool) :
    (∀ r, r ∈ getSuggestions st G (some t) est ↔ r ∈ preRows st G est ∧ t < r.known) ∧
    (getSuggestions st G (some t) est).Pairwise
      (fun a b => lexLt (sortKey a) (sortKey b) = false) ∧
    (∀ k, (getSuggestions st G (some t) est).filter (fun r => decide (sortKey r = k)) =
      ((preRows st G est).filter (fun r => decide (t < r.known))).filter
        (fun r => decide (sortKey r = k))) ∧
    (∀ d, sortKey (mkRow st G est d) =
      if est then [knownScore st G d, estScore st G d, getDeckGlobalScore st d]
      else [knownScore st G d, getDeckGlobalScore st d]) := by
  refine ⟨fun r => ?_, ?_, fun k => ?_, fun d => ?_⟩
  · rw [getSuggestions_some_eq, (sortDesc_perm sortKey _).mem_iff, List.mem_filter,
      decide_eq_true_eq]
  · rw [getSuggestions_some_eq]
    exact pairwise_sortDesc sortKey _
  · rw [getSuggestions_some_eq, filter_sortDesc]
  · cases est <;> rfl

/-- C8 evaluation: the card table really produces ties on the Total column
(here every card of the two stored opponents ties at 1 and passes the
threshold 0), so the order of tied card rows is observable; the source sorts
them with the pandas default sort kind, which gives no stability guarantee. -/
theorem cardTotal_ties_exist :
    cardTotal stCards true ["G"] "a" = 1 ∧ cardTotal stCards true ["G"] "b" = 1 ∧
    cardRowsAboveThreshold stCards true ["G"] 0 = ["a", "b", "c", "d"] := by
  with_unfolding_all decide


end T3CB
